import Mathlib

set_option maxHeartbeats 1000000

/-!
Shallow embedding of the TAT tensor sample (`src/main.cpp`): the leg-identity
registry (`TAT::legs::Legs` and its static tables) and the dense tensor
container (`TAT::tensor::Tensor`).  In the source `Size` is `unsigned long`
and `Legs::IdType` is `int`; every property verified here involves values far
below any overflow boundary and both sides of each equation would be reduced
by the same modulus, so sizes and indices are modelled as `Nat` and ids as
`Int`.  Out-of-range `std::vector` reads are undefined behaviour in the
source; the embedding totalises them with `List.getD` defaults that no
in-range hypothesis ever reaches.
-/

/-- A leg identity, `class Legs { IdType id = -1; ... }`.  `operator==` and
`operator<` on `Legs` compare the integer id, which coincides with structural
equality and id order here. -/
structure Legs where
  id : Int := -1
deriving DecidableEq

/-- The static registry state of `class Legs`: the counter `total` and the two
tables `name2id` and `id2name`.  The `std::map`s are modelled as association
lists whose keys are unique under the well-formedness invariant below. -/
structure LegsState where
  total : Int
  name2id : List (String × Int)
  id2name : List (Int × String)
deriving DecidableEq

/-- Association-list lookup, modelling `std::map::at`: the `some` case is a
hit, the `none` case is the thrown `std::out_of_range`. -/
def alookup {α β : Type} [DecidableEq α] (a : α) : List (α × β) → Option β
  | [] => none
  | kv :: rest => if kv.1 = a then some kv.2 else alookup a rest

/-- `Legs::Legs(const std::string& name)`: look the name up in `name2id`; on a
hit return the stored id and leave the registry untouched, otherwise take
`total` as the new id, record the pair in both tables and bump the counter. -/
def legsFromName (name : String) (s : LegsState) : Legs × LegsState :=
  match alookup name s.name2id with
  | some i => (⟨i⟩, s)
  | none =>
      (⟨s.total⟩,
        { total := s.total + 1,
          name2id := (name, s.total) :: s.name2id,
          id2name := (s.total, name) :: s.id2name })

/-- `operator<<(std::ostream&, const Legs&)`: print the registered name when
`id2name` holds the id, otherwise the synthetic label `UserDefinedLeg<id>`. -/
def display (l : Legs) (s : LegsState) : String :=
  match alookup l.id s.id2name with
  | some n => n
  | none => "UserDefinedLeg" ++ toString l.id

/-- Well-formedness of the registry tables: every recorded id is below the
counter and the two tables are mutually inverse (the name-to-id map is a
bijection onto the id-to-name map). -/
structure WFreg (s : LegsState) : Prop where
  nameIdLt : ∀ p ∈ s.name2id, p.2 < s.total
  idNameLt : ∀ p ∈ s.id2name, p.1 < s.total
  nameToId : ∀ p ∈ s.name2id, alookup p.2 s.id2name = some p.1
  idToName : ∀ p ∈ s.id2name, alookup p.2 s.name2id = some p.1

/-- `std::accumulate(a.begin(), a.end(), Size(1), std::multiplies<Size>())`. -/
def listProd (l : List Nat) : Nat := l.foldl (fun a b => a * b) 1

/-- `class Tensor<T>`: rank, total size, per-axis extents `dims`, per-axis leg
identities `legs`, and the flat row-major buffer `data`. -/
structure Tensor (T : Type) where
  rank : Nat
  size : Nat
  dims : List Nat
  legs : List Legs
  data : List T

/-- `Tensor::Tensor(A&& a, B&& b)`: rank is the extent-list length, size the
product of the extents, and `data(size)` value-initialises `size` elements of
`T` to zero. -/
def tensorNew (T : Type) [Zero T] (dims : List Nat) (legs : List Legs) : Tensor T :=
  { rank := dims.length
    size := listProd dims
    dims := dims
    legs := legs
    data := List.replicate (listProd dims) 0 }

/-- `Tensor::get_index`: `index = 0; for(i = 0; i < rank; i++) index =
index*dims[i] + position[i];`. -/
def Tensor.get_index {T : Type} (t : Tensor T) (position : List Nat) : Nat :=
  (List.range t.rank).foldl (fun index i => index * t.dims.getD i 0 + position.getD i 0) 0

/-- The `std::transform` loop of `Tensor::get_position`: walk the legs in
stored order and look each one up in `dict`; a missing key makes `dict.at`
throw, the `none` case. -/
def getPositionList (lgs : List Legs) (dict : List (Legs × Nat)) : Option (List Nat) :=
  match lgs with
  | [] => some []
  | l :: rest =>
      match alookup l dict, getPositionList rest dict with
      | some i, some ps => some (i :: ps)
      | _, _ => none

/-- `Tensor::get_position(const std::map<Legs, Size>& dict)`. -/
def Tensor.get_position {T : Type} (t : Tensor T) (dict : List (Legs × Nat)) :
    Option (List Nat) :=
  getPositionList t.legs dict

/-- `Tensor::operator()(const std::vector<Size>&)` (read form):
`data[get_index(position)]`. -/
def Tensor.getByPos {T : Type} [Inhabited T] (t : Tensor T) (position : List Nat) : T :=
  t.data.getD (t.get_index position) default

/-- `Tensor::operator()(const std::vector<Size>&)` (write form): assignment
through the returned reference `data[get_index(position)] = v`. -/
def Tensor.setByPos {T : Type} (t : Tensor T) (position : List Nat) (v : T) : Tensor T :=
  { t with data := t.data.set (t.get_index position) v }

/-- `Tensor::operator()(const std::map<Legs, Size>&)` (read form):
`data[get_index(get_position(dict))]`; a missing key propagates as `none`. -/
def Tensor.getByDict {T : Type} [Inhabited T] (t : Tensor T) (dict : List (Legs × Nat)) :
    Option T :=
  (t.get_position dict).map (fun pos => t.getByPos pos)

/-- One pass of `std::generate`: `n` successive calls of the stateful producer
`g`, threading its state, collecting the produced values in call order. -/
def produceList {T S : Type} (g : S → T × S) : Nat → S → List T
  | 0, _ => []
  | n + 1, s => (g s).1 :: produceList g n (g s).2

/-- The producer state reached after `n` calls. -/
def stateAfter {T S : Type} (g : S → T × S) : Nat → S → S
  | 0, s => s
  | n + 1, s => stateAfter g n (g s).2

/-- `Tensor::generate`: `std::generate(data.begin(), data.end(), g)` overwrites
every element of `data`, front to back, with successive producer results. -/
def Tensor.generate {T S : Type} (t : Tensor T) (g : S → T × S) (s : S) : Tensor T :=
  { t with data := produceList g t.data.length s }

/-- `Tensor::inplace_op_unary`:
`std::transform(data.begin(), data.end(), data.begin(), f)`. -/
def Tensor.inplace_op_unary {T : Type} (t : Tensor T) (f : T → T) : Tensor T :=
  { t with data := t.data.map f }

/-- Overwrite the front of `dst` with the elements of `src`, keeping `dst`'s
tail beyond `src`: the effect of `std::transform` writing `src.length` results
through an output iterator into `dst`.  (Writing past `dst`'s end would be
undefined behaviour in the source; the embedding drops the excess, which the
size side conditions used below never reach.) -/
def overwriteFront {α : Type} : List α → List α → List α
  | dst, [] => dst
  | [], _ :: _ => []
  | _ :: dst, s :: src => s :: overwriteFront dst src

/-- `Tensor::outplace_op_unary`: build `res = Tensor<T2>(dims, legs)` and
transform `data` into `res.data`. -/
def Tensor.outplace_op_unary {T T2 : Type} [Zero T2] (t : Tensor T) (f : T → T2) :
    Tensor T2 :=
  let res := tensorNew T2 t.dims t.legs
  { res with data := overwriteFront res.data (t.data.map f) }

/-- `Tensor::inplace_op_binary`: `std::transform(data.begin(), data.end(),
t2.data.begin(), data.begin(), f)`, walking this tensor's flat indices and
reading `t2.data` in lockstep.  (Reading past `t2.data`'s end would be
undefined behaviour; the embedding truncates, which the equal-size
precondition never reaches.) -/
def Tensor.inplace_op_binary {T T2 : Type} (t : Tensor T) (f : T → T2 → T)
    (t2 : Tensor T2) : Tensor T :=
  { t with data := List.zipWith f t.data t2.data }

/-- `Tensor::outplace_op_binary` as evidently intended.  The member's source
text does not compile: it spells `std:function` with a single colon, its
`template<class T1, class T2, class T>` header shadows the class template
parameter `T`, and it ends in `return resl` where `res` is the tensor built on
the previous line.  With those three slips undone it builds
`res = Tensor<T>(t1.dims, t1.legs)` and transforms `t1.data` and `t2.data` in
lockstep into `res.data`. -/
def outplace_op_binary {T1 T2 T : Type} [Zero T] (f : T1 → T2 → T)
    (t1 : Tensor T1) (t2 : Tensor T2) : Tensor T :=
  let res := tensorNew T t1.dims t1.legs
  { res with data := overwriteFront res.data (List.zipWith f t1.data t2.data) }

/-- Modelled from the spec: row-major strides, `stride[rank-1] = 1` and
`stride[i] = stride[i+1] * extents[i+1]`, to be compared with the Horner
accumulation of `Tensor::get_index`. -/
def strides : List Nat → List Nat
  | [] => []
  | [_] => [1]
  | _ :: d2 :: rest => (strides (d2 :: rest)).headD 1 * d2 :: strides (d2 :: rest)

/-- Proof-side closed form of the stride sum over paired (extent, coordinate)
axes: each coordinate is weighted by the product of the extents after it. -/
def suffixProdSum : List (Nat × Nat) → Nat
  | [] => 0
  | dp :: rest => dp.2 * listProd (rest.map Prod.fst) + suffixProdSum rest

theorem listProd_foldl (a : Nat) (l : List Nat) :
    l.foldl (fun x y => x * y) a = a * listProd l := by
  induction l generalizing a with
  | nil => simp [listProd]
  | cons d rest ih =>
      simp only [List.foldl_cons, listProd]
      rw [ih (a * d), ih (1 * d)]
      ring

theorem listProd_cons (d : Nat) (l : List Nat) : listProd (d :: l) = d * listProd l := by
  have h := listProd_foldl (1 * d) l
  simpa [listProd] using h

theorem listProd_append_single (l : List Nat) (d : Nat) :
    listProd (l ++ [d]) = listProd l * d := by
  simp only [listProd, List.foldl_append, List.foldl_cons, List.foldl_nil]

theorem suffixProdSum_append (l : List (Nat × Nat)) (d p : Nat) :
    suffixProdSum (l ++ [(d, p)]) = suffixProdSum l * d + p := by
  induction l with
  | nil => simp [suffixProdSum, listProd]
  | cons dp rest ih =>
      simp only [List.cons_append, List.append_eq, suffixProdSum, ih, List.map_append,
        List.map_cons, List.map_nil, listProd_append_single]
      ring

theorem getIndexLoop_take (ds ps : List Nat) (n : Nat) (hn : n ≤ ds.length)
    (hp : n ≤ ps.length) :
    (List.range n).foldl (fun index i => index * ds.getD i 0 + ps.getD i 0) 0
      = suffixProdSum ((ds.zip ps).take n) := by
  induction n with
  | zero => simp [suffixProdSum]
  | succ m ih =>
      have hmd : m < ds.length := hn
      have hmp : m < ps.length := hp
      have hz : m < (ds.zip ps).length := by
        rw [List.length_zip]
        exact lt_min hmd hmp
      have hget : (ds.zip ps)[m]? = some (ds[m], ps[m]) :=
        List.getElem?_zip_eq_some.mpr
          ⟨List.getElem?_eq_getElem hmd, List.getElem?_eq_getElem hmp⟩
      rw [List.range_succ, List.foldl_append, ih (Nat.le_of_succ_le hn) (Nat.le_of_succ_le hp),
        List.take_succ, hget]
      simp only [List.foldl_cons, List.foldl_nil, Option.toList_some, suffixProdSum_append]
      rw [List.getD_eq_getElem?_getD, List.getD_eq_getElem?_getD,
        List.getElem?_eq_getElem hmd, List.getElem?_eq_getElem hmp]
      rfl

theorem strides_cons (d : Nat) (ds : List Nat) :
    strides (d :: ds) = listProd ds :: strides ds := by
  induction ds generalizing d with
  | nil => simp [strides, listProd]
  | cons d2 rest ih =>
      rw [show strides (d :: d2 :: rest)
          = (strides (d2 :: rest)).headD 1 * d2 :: strides (d2 :: rest) from rfl, ih d2]
      simp [listProd_cons, Nat.mul_comm]

theorem suffixProdSum_zip (ds ps : List Nat) (h : ds.length ≤ ps.length) :
    suffixProdSum (ds.zip ps)
      = (List.zipWith (fun a b => a * b) ps (strides ds)).sum := by
  induction ds generalizing ps with
  | nil => simp [suffixProdSum, strides]
  | cons d rest ih =>
      cases ps with
      | nil => simp at h
      | cons p ps2 =>
          have h2 : rest.length ≤ ps2.length := by simpa using h
          rw [List.zip_cons_cons,
            show suffixProdSum ((d, p) :: rest.zip ps2)
              = p * listProd ((rest.zip ps2).map Prod.fst) + suffixProdSum (rest.zip ps2)
              from rfl,
            List.map_fst_zip rest ps2 h2, ih ps2 h2, strides_cons]
          simp

/-- Claim C1: for every tensor with extents `e` and every position vector of
matching length whose entries are within their extents, the flat index
computed by `Tensor::get_index` via Horner accumulation in stored axis order
equals the row-major stride sum with `stride[rank-1] = 1` and
`stride[i] = stride[i+1] * extents[i+1]`; in particular extents `[2,3,4]`
send position `[1,2,3]` to flat index 23. -/
theorem horner_index_eq_stride_sum (dims : List Nat) (lgs : List Legs) (p : List Nat)
    (hlen : p.length = dims.length)
    (hbound : ∀ i, i < dims.length → p.getD i 0 < dims.getD i 0) :
    (tensorNew Int dims lgs).get_index p
        = (List.zipWith (fun a b => a * b) p (strides dims)).sum
      ∧ (tensorNew Int [2, 3, 4] lgs).get_index [1, 2, 3] = 23 := by
  constructor
  · have hp : dims.length ≤ p.length := le_of_eq hlen.symm
    have h1 : (tensorNew Int dims lgs).get_index p
        = (List.range dims.length).foldl
            (fun index i => index * dims.getD i 0 + p.getD i 0) 0 := rfl
    rw [h1, getIndexLoop_take dims p dims.length (Nat.le_refl _) hp]
    have hzlen : (dims.zip p).length ≤ dims.length := by
      rw [List.length_zip]
      exact min_le_left _ _
    rw [List.take_of_length_le hzlen, suffixProdSum_zip dims p hp]
  · rfl

/-- Witness for C1 at extents `[2,3,4]` and position `[1,2,3]`. -/
theorem horner_index_eq_stride_sum_witness :
    (tensorNew Int [2, 3, 4] [⟨0⟩, ⟨1⟩, ⟨2⟩]).get_index [1, 2, 3]
        = (List.zipWith (fun a b => a * b) [1, 2, 3] (strides [2, 3, 4])).sum
      ∧ (tensorNew Int [2, 3, 4] [⟨0⟩, ⟨1⟩, ⟨2⟩]).get_index [1, 2, 3] = 23 :=
  horner_index_eq_stride_sum [2, 3, 4] [⟨0⟩, ⟨1⟩, ⟨2⟩] [1, 2, 3] rfl (by decide)

/-- Claim C10: `Tensor::get_index` reads only the first `rank` entries of the
position vector: any position with at least `rank` entries yields the same
flat index as its length-`rank` prefix, so trailing extras are ignored. -/
theorem get_index_ignores_trailing {T : Type} (t : Tensor T) (p : List Nat)
    (h : t.rank ≤ p.length) :
    t.get_index p = t.get_index (p.take t.rank) := by
  unfold Tensor.get_index
  apply List.foldl_ext
  intro a i hi
  have hi2 : i < t.rank := List.mem_range.mp hi
  have hsame : (p.take t.rank).getD i 0 = p.getD i 0 := by
    rw [List.getD_eq_getElem?_getD, List.getD_eq_getElem?_getD,
      List.getElem?_take_of_lt hi2]
  rw [hsame]

/-- Witness for C10: a rank-2 tensor ignores the trailing entries of a
length-4 position vector. -/
theorem get_index_ignores_trailing_witness :
    (tensorNew Int [2, 3] []).get_index [1, 2, 7, 9]
      = (tensorNew Int [2, 3] []).get_index
          ([1, 2, 7, 9].take (tensorNew Int [2, 3] []).rank) :=
  get_index_ignores_trailing (tensorNew Int [2, 3] []) [1, 2, 7, 9] (by decide)

/-- Claim C6: constructing a tensor from equal-length extents and legs lists
gives rank equal to the list length, a buffer whose length is the product of
the extents (the empty product is 1, so a rank-0 tensor has exactly one
element), and every buffer element equal to zero. -/
theorem constructor_shape_and_zero (dims : List Nat) (lgs : List Legs)
    (hlen : lgs.length = dims.length) :
    (tensorNew Int dims lgs).rank = dims.length
      ∧ (tensorNew Int dims lgs).data.length = listProd dims
      ∧ (tensorNew Int [] ([] : List Legs)).data.length = 1
      ∧ ∀ x ∈ (tensorNew Int dims lgs).data, x = 0 := by
  refine ⟨rfl, ?_, rfl, ?_⟩
  · simp [tensorNew]
  · intro x hx
    exact List.eq_of_mem_replicate hx

/-- Witness for C6 at extents `[2,3,4]` and three distinct legs. -/
theorem constructor_shape_and_zero_witness :
    (tensorNew Int [2, 3, 4] [⟨0⟩, ⟨1⟩, ⟨2⟩]).rank = [2, 3, 4].length
      ∧ (tensorNew Int [2, 3, 4] [⟨0⟩, ⟨1⟩, ⟨2⟩]).data.length = listProd [2, 3, 4]
      ∧ (tensorNew Int [] ([] : List Legs)).data.length = 1 :=
  ⟨(constructor_shape_and_zero [2, 3, 4] [⟨0⟩, ⟨1⟩, ⟨2⟩] rfl).1,
   (constructor_shape_and_zero [2, 3, 4] [⟨0⟩, ⟨1⟩, ⟨2⟩] rfl).2.1,
   (constructor_shape_and_zero [2, 3, 4] [⟨0⟩, ⟨1⟩, ⟨2⟩] rfl).2.2.1⟩

theorem alookup_cons_ne {α β : Type} [DecidableEq α] (x a : α) (v : β)
    (d : List (α × β)) (h : x ≠ a) : alookup a ((x, v) :: d) = alookup a d := by
  simp [alookup, h]

theorem getPositionList_skip (lgs : List Legs) (x : Legs) (v : Nat)
    (dict : List (Legs × Nat)) (hx : x ∉ lgs) :
    getPositionList lgs ((x, v) :: dict) = getPositionList lgs dict := by
  induction lgs with
  | nil => rfl
  | cons l rest ih =>
      have hxl : x ≠ l := fun he => hx (he ▸ List.mem_cons_self l rest)
      have hxr : x ∉ rest := fun hr => hx (List.mem_cons_of_mem l hr)
      simp only [getPositionList, alookup_cons_ne x l v dict hxl, ih hxr]

theorem getPositionList_zip (lgs : List Legs) (ps : List Nat)
    (hnd : lgs.Nodup) (hlen : ps.length = lgs.length) :
    getPositionList lgs (lgs.zip ps) = some ps := by
  induction lgs generalizing ps with
  | nil =>
      cases ps with
      | nil => rfl
      | cons p ps2 => simp at hlen
  | cons l rest ih =>
      cases ps with
      | nil => simp at hlen
      | cons p ps2 =>
          have hnd2 : rest.Nodup := (List.nodup_cons.mp hnd).2
          have hlm : l ∉ rest := (List.nodup_cons.mp hnd).1
          have hlen2 : ps2.length = rest.length := by simpa using hlen
          rw [List.zip_cons_cons]
          simp only [getPositionList]
          rw [getPositionList_skip rest l p (rest.zip ps2) hlm, ih ps2 hnd2 hlen2]
          simp [alookup]

/-- Claim C2: for a tensor with pairwise distinct legs, leg-keyed access
agrees with positional access: reading through the dictionary sending each
leg to that axis's index returns the same element as the position vector
does; moreover for extents `[2,3,4]` with legs `A,B,C`, writing at position
`[i,j,k]` and reading `{A:i, B:j, C:k}` yields the written value for all
valid `i,j,k`. -/
theorem dict_access_eq_positional_access (t : Tensor Int) (p : List Nat)
    (hnd : t.legs.Nodup) (hlen : p.length = t.legs.length) :
    t.getByDict (t.legs.zip p) = some (t.getByPos p)
      ∧ ∀ i j k : Nat, ∀ v : Int, i < 2 → j < 3 → k < 4 →
          ((tensorNew Int [2, 3, 4] [⟨0⟩, ⟨1⟩, ⟨2⟩]).setByPos [i, j, k] v).getByDict
              [(⟨0⟩, i), (⟨1⟩, j), (⟨2⟩, k)] = some v := by
  constructor
  · rw [Tensor.getByDict, Tensor.get_position, getPositionList_zip t.legs p hnd hlen]
    rfl
  · intro i j k v hi hj hk
    have hgp : getPositionList ([⟨0⟩, ⟨1⟩, ⟨2⟩] : List Legs)
        (([⟨0⟩, ⟨1⟩, ⟨2⟩] : List Legs).zip [i, j, k]) = some [i, j, k] :=
      getPositionList_zip _ _ (by decide) rfl
    rw [show (((tensorNew Int [2, 3, 4] [⟨0⟩, ⟨1⟩, ⟨2⟩]).setByPos [i, j, k] v).getByDict
          [(⟨0⟩, i), (⟨1⟩, j), (⟨2⟩, k)])
        = (getPositionList ([⟨0⟩, ⟨1⟩, ⟨2⟩] : List Legs)
            (([⟨0⟩, ⟨1⟩, ⟨2⟩] : List Legs).zip [i, j, k])).map
            (fun pos =>
              ((tensorNew Int [2, 3, 4] [⟨0⟩, ⟨1⟩, ⟨2⟩]).setByPos [i, j, k] v).getByPos pos)
        from rfl, hgp]
    have hlt : ((0 * 2 + i) * 3 + j) * 4 + k
        < (List.replicate (listProd [2, 3, 4]) (0 : Int)).length := by
      rw [List.length_replicate]
      show ((0 * 2 + i) * 3 + j) * 4 + k < 24
      omega
    show some (((List.replicate (listProd [2, 3, 4]) (0 : Int)).set
          (((0 * 2 + i) * 3 + j) * 4 + k) v).getD
        (((0 * 2 + i) * 3 + j) * 4 + k) default) = some v
    rw [List.getD_eq_getElem?_getD, List.getElem?_set_self hlt]
    rfl

/-- Witness for C2: the tensor with extents `[2,3,4]` and legs of ids
`0, 1, 2`, written at `[1,2,3]` with `7` and read back through the leg-keyed
dictionary. -/
theorem dict_access_eq_positional_access_witness :
    ((tensorNew Int [2, 3, 4] [⟨0⟩, ⟨1⟩, ⟨2⟩]).setByPos [1, 2, 3] 7).getByDict
        [(⟨0⟩, 1), (⟨1⟩, 2), (⟨2⟩, 3)] = some 7 :=
  (dict_access_eq_positional_access (tensorNew Int [2, 3, 4] [⟨0⟩, ⟨1⟩, ⟨2⟩]) [1, 2, 3]
      (by decide) rfl).2 1 2 3 7 (by decide) (by decide) (by decide)

theorem getPositionList_missing (lgs : List Legs) (dict : List (Legs × Nat))
    (l : Legs) (hl : l ∈ lgs) (hm : alookup l dict = none) :
    getPositionList lgs dict = none := by
  induction lgs with
  | nil => simp at hl
  | cons x rest ih =>
      rcases List.mem_cons.mp hl with he | hr
      · subst he
        simp only [getPositionList, hm]
      · simp only [getPositionList, ih hr]
        cases alookup x dict <;> rfl

/-- Claim C4: a leg-to-index mapping that omits one of the tensor's legs makes
leg-keyed access fail with the distinct missing-key outcome (`none` — the
thrown `std::out_of_range` of `dict.at`) rather than return a default
element; the failed lookup produces no modified tensor. -/
theorem missing_leg_yields_none (t : Tensor Int) (dict : List (Legs × Nat))
    (l : Legs) (hl : l ∈ t.legs) (hm : alookup l dict = none) :
    t.get_position dict = none ∧ t.getByDict dict = none := by
  have h1 : t.get_position dict = none := getPositionList_missing t.legs dict l hl hm
  refine ⟨h1, ?_⟩
  rw [Tensor.getByDict, h1]
  rfl

/-- Witness for C4: querying a tensor whose single leg has id 5 with the empty
dictionary. -/
theorem missing_leg_yields_none_witness :
    (tensorNew Int [2] [⟨5⟩]).get_position [] = none
      ∧ (tensorNew Int [2] [⟨5⟩]).getByDict [] = none :=
  missing_leg_yields_none (tensorNew Int [2] [⟨5⟩]) [] ⟨5⟩ (by decide) rfl

theorem produceList_length {T S : Type} (g : S → T × S) (n : Nat) (s : S) :
    (produceList g n s).length = n := by
  induction n generalizing s with
  | zero => rfl
  | succ m ih => simp [produceList, ih]

theorem produceList_getD {T S : Type} (g : S → T × S) (n : Nat) (s : S) (i : Nat)
    (d : T) (h : i < n) :
    (produceList g n s).getD i d = (g (stateAfter g i s)).1 := by
  induction n generalizing s i with
  | zero => exact absurd h (Nat.not_lt_zero i)
  | succ m ih =>
      cases i with
      | zero => rfl
      | succ i2 =>
          have h2 : i2 < m := Nat.lt_of_succ_lt_succ h
          show (produceList g m (g s).2).getD i2 d = _
          rw [ih (g s).2 i2 h2]
          rfl

theorem stateAfter_counter (i c : Nat) :
    stateAfter (fun c2 : Nat => ((c2 : Int), c2 + 1)) i c = c + i := by
  induction i generalizing c with
  | zero => rfl
  | succ m ih =>
      show stateAfter (fun c2 : Nat => ((c2 : Int), c2 + 1)) m (c + 1) = c + (m + 1)
      rw [ih (c + 1)]
      omega

/-- Claim C5: `Tensor::generate` overwrites every buffer element in storage
order with successive results of the producer, and with a counter producing
`0,1,2,...` the buffer afterwards holds exactly the values `0,...,size-1` at
ascending flat indices. -/
theorem generate_fills_in_order {S : Type} (t : Tensor Int) (g : S → Int × S) (s : S) :
    ((t.generate g s).data.length = t.data.length
      ∧ ∀ i, i < t.data.length →
          (t.generate g s).data.getD i 0 = (g (stateAfter g i s)).1)
      ∧ ∀ i, i < t.data.length →
          (t.generate (fun c : Nat => ((c : Int), c + 1)) 0).data.getD i 0 = (i : Int) := by
  refine ⟨⟨produceList_length g t.data.length s, ?_⟩, ?_⟩
  · intro i hi
    exact produceList_getD g t.data.length s i 0 hi
  · intro i hi
    show (produceList (fun c : Nat => ((c : Int), c + 1)) t.data.length 0).getD i 0
        = (i : Int)
    rw [produceList_getD (fun c : Nat => ((c : Int), c + 1)) t.data.length 0 i 0 hi,
      stateAfter_counter i 0]
    simp

/-- Witness for C5: the `[2,3,4]` tensor filled by the counter holds `23` at
flat index 23. -/
theorem generate_fills_in_order_witness :
    ((tensorNew Int [2, 3, 4] [⟨0⟩, ⟨1⟩, ⟨2⟩]).generate
        (fun c : Nat => ((c : Int), c + 1)) 0).data.getD 23 0 = (23 : Int) :=
  (generate_fills_in_order (tensorNew Int [2, 3, 4] [⟨0⟩, ⟨1⟩, ⟨2⟩])
      (fun c : Nat => ((c : Int), c + 1)) 0).2 23 (by decide)

theorem overwriteFront_eq_src {α : Type} (dst src : List α)
    (h : src.length = dst.length) : overwriteFront dst src = src := by
  induction dst generalizing src with
  | nil =>
      cases src with
      | nil => rfl
      | cons a as => simp at h
  | cons b bs ih =>
      cases src with
      | nil => simp at h
      | cons a as =>
          have h2 : as.length = bs.length := by simpa using h
          show a :: overwriteFront bs as = a :: as
          rw [ih as h2]

theorem zipWith_getD {α β γ : Type} (f : α → β → γ) (a : List α) (b : List β)
    (i : Nat) (da : α) (db : β) (dc : γ) (ha : i < a.length) (hb : i < b.length) :
    (List.zipWith f a b).getD i dc = f (a.getD i da) (b.getD i db) := by
  rw [List.getD_eq_getElem?_getD, List.getElem?_zipWith,
    List.getElem?_eq_getElem ha, List.getElem?_eq_getElem hb]
  rw [List.getD_eq_getElem?_getD, List.getD_eq_getElem?_getD,
    List.getElem?_eq_getElem ha, List.getElem?_eq_getElem hb]
  rfl

/-- Claim C8 (the behaviour the source evidently intends; its
`outplace_op_binary` text does not compile, see that definition's comment):
out-of-place unary and binary transforms produce a tensor whose extents and
legs equal the first operand's without touching the source, and the in-place
transforms keep extents, legs and buffer length unchanged. -/
theorem op_shape_preservation (t t2 : Tensor Int) (f : Int → Int)
    (g : Int → Int → Int) (hsz : t2.data.length = t.data.length) :
    ((t.outplace_op_unary f).dims = t.dims ∧ (t.outplace_op_unary f).legs = t.legs)
      ∧ ((outplace_op_binary g t t2).dims = t.dims
          ∧ (outplace_op_binary g t t2).legs = t.legs)
      ∧ ((t.inplace_op_unary f).dims = t.dims ∧ (t.inplace_op_unary f).legs = t.legs
          ∧ (t.inplace_op_unary f).data.length = t.data.length)
      ∧ ((t.inplace_op_binary g t2).dims = t.dims
          ∧ (t.inplace_op_binary g t2).legs = t.legs
          ∧ (t.inplace_op_binary g t2).data.length = t.data.length) := by
  refine ⟨⟨rfl, rfl⟩, ⟨rfl, rfl⟩, ⟨rfl, rfl, ?_⟩, ⟨rfl, rfl, ?_⟩⟩
  · simp [Tensor.inplace_op_unary]
  · simp [Tensor.inplace_op_binary, hsz]

/-- Witness for C8 on two freshly constructed one-axis tensors. -/
theorem op_shape_preservation_witness :
    ((tensorNew Int [2] [⟨0⟩]).outplace_op_unary (fun x => x + 1)).dims
        = (tensorNew Int [2] [⟨0⟩]).dims
      ∧ ((tensorNew Int [2] [⟨0⟩]).inplace_op_binary (fun x y => x + y)
          (tensorNew Int [2] [⟨0⟩])).data.length
        = (tensorNew Int [2] [⟨0⟩]).data.length :=
  ⟨(op_shape_preservation (tensorNew Int [2] [⟨0⟩]) (tensorNew Int [2] [⟨0⟩])
      (fun x => x + 1) (fun x y => x + y) rfl).1.1,
   (op_shape_preservation (tensorNew Int [2] [⟨0⟩]) (tensorNew Int [2] [⟨0⟩])
      (fun x => x + 1) (fun x y => x + y) rfl).2.2.2.2.2⟩

/-- Claim C9 (the behaviour the source evidently intends for the binary
transforms; the `outplace_op_binary` text does not compile, see that
definition's comment): under the equal-total-size precondition the
out-of-place binary transform's tensor holds `g` of the operands' elements at
every flat index, and the in-place binary transform replaces each element
likewise, walking flat indices in lockstep with no per-axis shape check. -/
theorem zip_pointwise (t1 t2 : Tensor Int) (g : Int → Int → Int)
    (hsz : t2.data.length = t1.data.length)
    (hinv : t1.data.length = listProd t1.dims) :
    (∀ i, i < t1.data.length →
        (outplace_op_binary g t1 t2).data.getD i 0
          = g (t1.data.getD i 0) (t2.data.getD i 0))
      ∧ ∀ i, i < t1.data.length →
          (t1.inplace_op_binary g t2).data.getD i 0
            = g (t1.data.getD i 0) (t2.data.getD i 0) := by
  constructor
  · intro i hi
    have hov : overwriteFront (tensorNew Int t1.dims t1.legs).data
        (List.zipWith g t1.data t2.data) = List.zipWith g t1.data t2.data := by
      apply overwriteFront_eq_src
      simp [tensorNew, List.length_zipWith, hsz, hinv]
    rw [show (outplace_op_binary g t1 t2).data
        = overwriteFront (tensorNew Int t1.dims t1.legs).data
            (List.zipWith g t1.data t2.data) from rfl, hov]
    exact zipWith_getD g t1.data t2.data i 0 0 0 hi (by omega)
  · intro i hi
    exact zipWith_getD g t1.data t2.data i 0 0 0 hi (by omega)

/-- Witness for C9: adding two freshly constructed one-axis tensors at flat
index 0. -/
theorem zip_pointwise_witness :
    (outplace_op_binary (fun x y => x + y) (tensorNew Int [2] [⟨0⟩])
        (tensorNew Int [2] [⟨0⟩])).data.getD 0 0
      = (tensorNew Int [2] [⟨0⟩]).data.getD 0 0
        + (tensorNew Int [2] [⟨0⟩]).data.getD 0 0 :=
  (zip_pointwise (tensorNew Int [2] [⟨0⟩]) (tensorNew Int [2] [⟨0⟩])
      (fun x y => x + y) rfl rfl).1 0 (by decide)

theorem alookup_mem {α β : Type} [DecidableEq α] (a : α) (b : β) (l : List (α × β))
    (h : alookup a l = some b) : (a, b) ∈ l := by
  induction l with
  | nil => simp [alookup] at h
  | cons kv rest ih =>
      obtain ⟨k, v⟩ := kv
      simp only [alookup] at h
      by_cases he : k = a
      · rw [if_pos he] at h
        subst he
        rw [Option.some.injEq] at h
        subst h
        exact List.mem_cons_self _ _
      · rw [if_neg he] at h
        exact List.mem_cons_of_mem _ (ih h)

theorem wfreg_empty : WFreg (LegsState.mk 0 [] []) := by
  constructor <;> simp

/-- Claim C3: the name-to-id mapping maintained by `Legs::Legs(const
std::string&)` behaves as a bijection: a second call with the same name
returns the identical id and leaves the registry untouched, calls with two
different names return distinct ids, a fresh name is assigned the current
value of the single monotonically increasing counter with both the
name-to-id and id-to-name entries recorded, and registry well-formedness is
preserved. -/
theorem registry_bijection (s : LegsState) (n n1 n2 : String) (hwf : WFreg s) :
    legsFromName n (legsFromName n s).2 = ((legsFromName n s).1, (legsFromName n s).2)
      ∧ (n1 ≠ n2 →
          ((legsFromName n2 (legsFromName n1 s).2).1).id ≠ ((legsFromName n1 s).1).id)
      ∧ (alookup n s.name2id = none →
          ((legsFromName n s).1.id = s.total
            ∧ (legsFromName n s).2.total = s.total + 1
            ∧ (n, s.total) ∈ (legsFromName n s).2.name2id
            ∧ (s.total, n) ∈ (legsFromName n s).2.id2name))
      ∧ WFreg (legsFromName n s).2 := by
  refine ⟨?_, ?_, ?_, ?_⟩
  · cases h : alookup n s.name2id with
    | some i => simp [legsFromName, h]
    | none => simp [legsFromName, h, alookup]
  · intro hne
    cases h1 : alookup n1 s.name2id with
    | some i1 =>
        cases h2 : alookup n2 s.name2id with
        | some i2 =>
            have m1 := hwf.nameToId (n1, i1) (alookup_mem n1 i1 s.name2id h1)
            have m2 := hwf.nameToId (n2, i2) (alookup_mem n2 i2 s.name2id h2)
            simp only [legsFromName, h1, h2]
            intro heq
            have heq2 : i2 = i1 := heq
            rw [heq2, m1] at m2
            exact hne (Option.some.inj m2)
        | none =>
            have hl := hwf.nameIdLt (n1, i1) (alookup_mem n1 i1 s.name2id h1)
            have hl2 : i1 < s.total := hl
            simp only [legsFromName, h1, h2]
            intro heq
            have heq2 : s.total = i1 := heq
            omega
    | none =>
        have hskip : alookup n2 ((n1, s.total) :: s.name2id) = alookup n2 s.name2id :=
          alookup_cons_ne n1 n2 s.total s.name2id hne
        cases h2 : alookup n2 s.name2id with
        | some i2 =>
            have hl := hwf.nameIdLt (n2, i2) (alookup_mem n2 i2 s.name2id h2)
            have hl2 : i2 < s.total := hl
            simp only [legsFromName, h1, hskip, h2]
            intro heq
            have heq2 : i2 = s.total := heq
            omega
        | none =>
            simp only [legsFromName, h1, hskip, h2]
            intro heq
            have heq2 : s.total + 1 = s.total := heq
            omega
  · intro h0
    simp [legsFromName, h0]
  · cases h : alookup n s.name2id with
    | some i =>
        have e : (legsFromName n s).2 = s := by simp [legsFromName, h]
        rw [e]
        exact hwf
    | none =>
        have e : (legsFromName n s).2
            = { total := s.total + 1,
                name2id := (n, s.total) :: s.name2id,
                id2name := (s.total, n) :: s.id2name } := by simp [legsFromName, h]
        rw [e]
        refine ⟨?_, ?_, ?_, ?_⟩
        · intro p hp
          rcases List.mem_cons.mp hp with he | hm
          · rw [he]
            show s.total < s.total + 1
            omega
          · have := hwf.nameIdLt p hm
            show p.2 < s.total + 1
            omega
        · intro p hp
          rcases List.mem_cons.mp hp with he | hm
          · rw [he]
            show s.total < s.total + 1
            omega
          · have := hwf.idNameLt p hm
            show p.1 < s.total + 1
            omega
        · intro p hp
          rcases List.mem_cons.mp hp with he | hm
          · rw [he]
            show alookup s.total ((s.total, n) :: s.id2name) = some n
            simp [alookup]
          · have hlt := hwf.nameIdLt p hm
            have hne2 : s.total ≠ p.2 := by omega
            rw [alookup_cons_ne s.total p.2 n s.id2name hne2]
            exact hwf.nameToId p hm
        · intro p hp
          rcases List.mem_cons.mp hp with he | hm
          · rw [he]
            show alookup n ((n, s.total) :: s.name2id) = some s.total
            simp [alookup]
          · have hne2 : n ≠ p.2 := by
              intro hcon
              have hx := hwf.idToName p hm
              rw [← hcon, h] at hx
              exact Option.noConfusion hx
            rw [alookup_cons_ne n p.2 s.total s.name2id hne2]
            exact hwf.idToName p hm

/-- Witness for C3 from the empty registry with names `a`, `x`, `y`. -/
theorem registry_bijection_witness :
    legsFromName "a" (legsFromName "a" (LegsState.mk 0 [] [])).2
        = ((legsFromName "a" (LegsState.mk 0 [] [])).1,
           (legsFromName "a" (LegsState.mk 0 [] [])).2)
      ∧ ((legsFromName "y" (legsFromName "x" (LegsState.mk 0 [] [])).2).1).id
        ≠ ((legsFromName "x" (LegsState.mk 0 [] [])).1).id :=
  ⟨(registry_bijection (LegsState.mk 0 [] []) "a" "x" "y" wfreg_empty).1,
   (registry_bijection (LegsState.mk 0 [] []) "a" "x" "y" wfreg_empty).2.1 (by decide)⟩

/-- Claim C7: `display` round-trips registration: after registering name `n`
the returned identity displays as `n`, while an identity whose id has no
registered name displays as the synthetic `UserDefinedLeg<id>` label;
`display` is a total function. -/
theorem display_round_trip (s : LegsState) (n : String) (hwf : WFreg s) :
    display (legsFromName n s).1 (legsFromName n s).2 = n
      ∧ ∀ l : Legs, alookup l.id s.id2name = none →
          display l s = "UserDefinedLeg" ++ toString l.id := by
  constructor
  · cases h : alookup n s.name2id with
    | some i =>
        have e : legsFromName n s = (⟨i⟩, s) := by simp [legsFromName, h]
        rw [e]
        have hm := hwf.nameToId (n, i) (alookup_mem n i s.name2id h)
        show display ⟨i⟩ s = n
        have hm2 : alookup (⟨i⟩ : Legs).id s.id2name = some n := hm
        simp [display, hm2]
    | none =>
        have e : legsFromName n s
            = (⟨s.total⟩,
               { total := s.total + 1,
                 name2id := (n, s.total) :: s.name2id,
                 id2name := (s.total, n) :: s.id2name }) := by simp [legsFromName, h]
        rw [e]
        simp [display, alookup]
  · intro l hm
    simp [display, hm]

/-- Witness for C7: the name `a` registered into the empty registry displays
as `a`, and an unregistered id 7 displays as the synthetic label. -/
theorem display_round_trip_witness :
    display (legsFromName "a" (LegsState.mk 0 [] [])).1
        (legsFromName "a" (LegsState.mk 0 [] [])).2 = "a"
      ∧ display ⟨7⟩ (LegsState.mk 0 [] []) = "UserDefinedLeg" ++ toString (7 : Int) :=
  ⟨(display_round_trip (LegsState.mk 0 [] []) "a" wfreg_empty).1,
   (display_round_trip (LegsState.mk 0 [] []) "a" wfreg_empty).2 ⟨7⟩ rfl⟩
